import Mathlib

/-!
# cpanelgo: response envelopes and their unified error

A shallow embedding of `cpanelgo.go`: the three response envelopes
(`BaseUAPIResponse`, `BaseAPI2Response`, `BaseAPI1Response`) with their
`Error()` and `Message()` methods, the argument encoder `Args.Values`, and the
facade `Api` over an `ApiGateway`, followed by the properties proved of them.

Conventions of the embedding

* A Go `string` is a Lean `String`; `len(s)` is the number of bytes of its
  UTF-8 encoding.
* A Go `int` that is only ever compared with a constant is an `Int`.
* A Go `[]string` is a `StringSlice`: the nil slice, or a slice with elements.
* A Go `error` is an `Option String`: `none` is `nil`, `some t` is an error
  whose text is `t` (the only errors built here come from `errors.New`).
* A Go map is the list of its entries, one per key: `Args` in the order in
  which `range` visits it, `url.Values` in the order in which keys were added.
* A method of an interface implementation with state is a function from the
  state before the call to the result and the state after it.
-/

namespace cpanelgo

/-! ## Go primitives used by the source -/

/-- Go `[]string`: either the nil slice or a slice holding `elems`. -/
inductive StringSlice where
  | nil : StringSlice
  | of (elems : List String) : StringSlice
  deriving DecidableEq, Repr

namespace StringSlice

/-- Elements of a slice; the nil slice has none. -/
def elems : StringSlice → List String
  | nil => []
  | of l => l

/-- Go `len(s)` of a slice; `len(nil)` is `0`. -/
def len (s : StringSlice) : Nat := s.elems.length

end StringSlice

/-- Go `len(s)` of a string: its length in bytes. -/
def len (s : String) : Nat := s.utf8ByteSize

/-- Go `error`: `none` is `nil`, `some t` an error whose `Error()` text is `t`. -/
abbrev error := Option String

namespace errors

/-- Go `errors.New(text)`: an error that formats as `text`. -/
def New (text : String) : error := some text

end errors

namespace strings

/-- Go `strings.Join(elems, sep)`: the empty string for no elements, the element
itself for one, and otherwise a builder that receives `elems[0]` and then, for
every later element, `sep` followed by that element. -/
def Join (elems : List String) (sep : String) : String :=
  match elems with
  | [] => ""
  | [e] => e
  | e :: rest => rest.foldl (fun b s => (b ++ sep) ++ s) e

end strings

/-! ## Response envelopes -/

/-- UAPI envelope: `status`, `errors`, `messages`. -/
structure BaseUAPIResponse where
  StatusCode : Int
  Errors : StringSlice
  Messages : StringSlice
  deriving DecidableEq, Repr

/-- The `event` record of the API2 and API1 envelopes: `result`, `reason`. -/
structure Event where
  Result : Int
  Reason : String
  deriving DecidableEq, Repr

/-- API2 envelope: the nested `event` record. -/
structure BaseAPI2Response where
  Event : Event
  deriving DecidableEq, Repr

/-- The `data` record of the API1 envelope: `result`. -/
structure Data where
  Result : String
  deriving DecidableEq, Repr

/-- API1 envelope: `data`, the top-level `error` string and `event`. -/
structure BaseAPI1Response where
  Data : Data
  ErrorString : String
  Event : Event
  deriving DecidableEq, Repr

/-- Method `func (r BaseUAPIResponse) Error() error`. -/
def BaseUAPIResponse.Error (r : BaseUAPIResponse) : error :=
  if r.StatusCode = 1 then
    none
  else if r.Errors.len = 0 then
    errors.New "Unknown"
  else
    errors.New (strings.Join r.Errors.elems "\n")

/-- Method `func (r BaseUAPIResponse) Message() error`. -/
def BaseUAPIResponse.Message (r : BaseUAPIResponse) : error :=
  if r.Messages = StringSlice.nil ∨ r.Messages.len = 0 then
    none
  else
    errors.New (strings.Join r.Messages.elems "\n")

/-- Method `func (r BaseAPI2Response) Error() error`. -/
def BaseAPI2Response.Error (r : BaseAPI2Response) : error :=
  if r.Event.Result = 1 then
    none
  else if len r.Event.Reason = 0 then
    errors.New "Unknown"
  else
    errors.New r.Event.Reason

/-- Method `func (r BaseAPI1Response) Error() error`. -/
def BaseAPI1Response.Error (r : BaseAPI1Response) : error :=
  if r.ErrorString ≠ "" then
    errors.New r.ErrorString
  else if r.Event.Result ≠ 1 then
    if len r.Event.Reason = 0 then
      errors.New "Unknown"
    else
      errors.New r.Event.Reason
  else
    none

/-! ## Call arguments and their encoding -/

namespace strings

/-- The step `m := Index(s, sep); s[:m], s[m+len(sep):]` of Go's split loop on
the characters of `s`: the text before the first occurrence of `sep` and the
text after it, or `none` when `sep` does not occur (`Index` gives `-1`). -/
def cutFirst (sep : List Char) : List Char → Option (List Char × List Char)
  | [] => if sep = [] then some ([], []) else none
  | c :: cs =>
    if sep.isPrefixOf (c :: cs) then
      some ([], (c :: cs).drop sep.length)
    else
      match cutFirst sep cs with
      | none => none
      | some (before, after) => some (c :: before, after)

/-- The loop of Go `strings.Count(s, substr)` for a non-empty `substr`: count an
occurrence, continue after it. `fuel` bounds the number of rounds. -/
def countLoop (sep : List Char) : Nat → List Char → Nat
  | 0, _ => 0
  | fuel + 1, s =>
    match cutFirst sep s with
    | none => 0
    | some (_, after) => countLoop sep fuel after + 1

/-- Go `strings.Count(s, substr)`: the number of non-overlapping occurrences of
`substr` in `s`, and one more than the number of characters of `s` for the
empty `substr`. Every round of the loop consumes at least one character, so
the length of `s` is enough fuel. -/
def Count (s substr : String) : Nat :=
  if substr = "" then s.length + 1 else countLoop substr.data s.length s.data

/-- Go `strings.explode(s, n)`: `s` cut into its characters, at most `n` pieces
(all of them when `n` is negative), the last piece holding the remainder. -/
def explode (s : String) (n : Int) : List String :=
  let l : Nat := s.length
  let m : Nat := if n < 0 ∨ n > l then l else n.toNat
  if m = 0 then []
  else (s.data.take (m - 1)).map String.singleton ++ [String.mk (s.data.drop (m - 1))]

/-- The loop of Go `strings.genSplit`: up to `cuts` times, store the text before
the next separator and continue after it; the remainder is the last piece. -/
def splitLoop (sep : List Char) : Nat → List Char → List (List Char)
  | 0, s => [s]
  | cuts + 1, s =>
    match cutFirst sep s with
    | none => [s]
    | some (before, after) => before :: splitLoop sep cuts after

/-- Go `strings.genSplit(s, sep, 0, n)`: no pieces for `n == 0`, `explode` for
the empty separator, otherwise at most `n` pieces (as many as there are for a
negative `n`), never more than `len(s) + 1`. -/
def genSplit (s sep : String) (n : Int) : List String :=
  if n = 0 then []
  else if sep = "" then explode s n
  else
    let n1 : Nat := if n < 0 then Count s sep + 1 else n.toNat
    let n2 : Nat := if n1 > len s + 1 then len s + 1 else n1
    (splitLoop sep.data (n2 - 1) s.data).map String.mk

/-- Go `strings.SplitN(s, sep, n)`. -/
def SplitN (s sep : String) (n : Int) : List String := genSplit s sep n

/-- Go `strings.Split(s, sep)`. -/
def Split (s sep : String) : List String := genSplit s sep (-1)

end strings

/-- A Go value held in an `interface{}`, as far as `%v` formatting sees it: a
string, an integer, a boolean, or a value of another type given by its default
text. -/
inductive Value where
  | str (s : String) : Value
  | int (i : Int) : Value
  | bool (b : Bool) : Value
  | other (text : String) : Value
  deriving DecidableEq, Repr

namespace fmt

/-- Go `fmt.Sprintf("%v", v)`: a string as it is, an integer in decimal, a
boolean as `true` or `false`. -/
def Sprintf_v : Value → String
  | Value.str s => s
  | Value.int i => toString i
  | Value.bool b => if b then "true" else "false"
  | Value.other text => text

end fmt

namespace url

/-- Go `url.Values`, a `map[string][]string`: its entries, one per key. -/
abbrev Values := List (String × List String)

namespace Values

/-- The slice `v[key]`; no values when the key is absent. -/
def lookup : Values → String → List String
  | [], _ => []
  | (k, vs) :: rest, key => if k = key then vs else lookup rest key

/-- The keys of the map. -/
def keys (v : Values) : List String := v.map Prod.fst

/-- Number of values held, over all keys. -/
def count (v : Values) : Nat := (v.map (fun e => e.2.length)).sum

/-- Go `func (v Values) Add(key, value string)`:
`v[key] = append(v[key], value)`. -/
def Add : Values → String → String → Values
  | [], key, value => [(key, [value])]
  | (k, vs) :: rest, key, value =>
    if k = key then (k, vs ++ [value]) :: rest else (k, vs) :: Add rest key value

end Values

end url

/-- Go `type Args map[string]interface{}`: the entries of the map in the order
in which `range` visits them. -/
abbrev Args := List (String × Value)

namespace Args

/-- The keys of the map, in the order of the visit. -/
def keys (a : Args) : List String := a.map Prod.fst

/-- A map holds every key once. -/
def WellFormed (a : Args) : Prop := a.keys.Nodup

instance (a : Args) : Decidable a.WellFormed := by
  unfold WellFormed
  infer_instance

/-- Body of the loop `for k, v := range a` of `Values`. -/
def rangeBody (apiVersion : String) (vals : url.Values) (entry : String × Value) : url.Values :=
  if apiVersion = "1" then
    match strings.SplitN entry.1 "=" 2 with
    | [kv0] => url.Values.Add vals kv0 ""
    | [kv0, kv1] => url.Values.Add vals kv0 kv1
    | _ => vals
  else
    url.Values.Add vals entry.1 (fmt.Sprintf_v entry.2)

/-- Method `func (a Args) Values(apiVersion string) (url.Values)`. -/
def Values (a : Args) (apiVersion : String) : url.Values :=
  a.foldl (rangeBody apiVersion) []

end Args

/-! ## Gateway and facade -/

/-- Go `type ApiGateway interface`: an implementation with state `σ`. Every
method takes the state of the implementation and returns its error with the
state it leaves; what a call stores in `out` is part of that state. -/
structure ApiGateway (σ : Type) where
  UAPI : String → String → Args → σ → error × σ
  API2 : String → String → Args → σ → error × σ
  API1 : String → String → List String → σ → error × σ
  Close : σ → error × σ

/-- Go `type Api struct`: the `Gateway` field, `none` for the nil interface. -/
structure Api (σ : Type) where
  Gateway : Option (ApiGateway σ)

/-- Go `func NewApi(gw ApiGateway) Api`. -/
def NewApi {σ : Type} (gw : Option (ApiGateway σ)) : Api σ :=
  Api.mk gw

/-- Method `func (a Api) Close() error`, run on the state `s` of the gateway. -/
def Api.Close {σ : Type} (a : Api σ) (s : σ) : error × σ :=
  match a.Gateway with
  | some gw => gw.Close s
  | none => (none, s)

/-- A gateway that counts the calls of `Close` and never fails. -/
def countingGateway : ApiGateway Nat where
  UAPI := fun _ _ _ s => (none, s)
  API2 := fun _ _ _ s => (none, s)
  API1 := fun _ _ _ s => (none, s)
  Close := fun s => (none, s + 1)

/-- A gateway holding a session that can be released once: `Close` on a state
that was already closed reports an error. The state counts the calls. -/
def sessionGateway : ApiGateway Nat where
  UAPI := fun _ _ _ s => (none, s)
  API2 := fun _ _ _ s => (none, s)
  API1 := fun _ _ _ s => (none, s)
  Close := fun s => (if s = 0 then none else errors.New "session already closed", s + 1)

/-! ## Specification-side definitions -/

/-- The elements of a list written one after the other with a single `sep`
between consecutive elements: nothing before the first, nothing after the last. -/
def concatWith (sep : String) : List String → String
  | [] => ""
  | [e] => e
  | e :: e2 :: rest => e ++ sep ++ concatWith sep (e2 :: rest)

/-- The direct encoding of the spec: every key of the arguments with the one
value that is the default text of what it is mapped to. -/
def directEncoding (a : Args) : url.Values :=
  a.map (fun e => (e.1, [fmt.Sprintf_v e.2]))

/-! ## Helper lemmas -/

theorem len_pos_of_cons (c : Char) (cs : List Char) : 0 < len (String.mk (c :: cs)) := by
  have hc := Char.utf8Size_pos c
  simp only [len, String.utf8ByteSize, String.utf8ByteSize.go]
  omega

/-- A string has zero bytes exactly when it is the empty string. -/
theorem strLen_eq_zero_iff (s : String) : len s = 0 ↔ s = "" := by
  constructor
  · intro h
    cases s with
    | mk d =>
      cases d with
      | nil => rfl
      | cons c cs =>
        have := len_pos_of_cons c cs
        omega
  · rintro rfl
    rfl

theorem append_eq_empty_iff (a b : String) : a ++ b = "" ↔ a = "" ∧ b = "" := by
  rw [String.ext_iff, String.ext_iff, String.ext_iff]
  simp

/-- The builder loop of `Join` started on `x ++ y` only ever extends `y`. -/
theorem foldl_join_append (sep : String) (rest : List String) (x y : String) :
    rest.foldl (fun b s => (b ++ sep) ++ s) (x ++ y)
      = x ++ rest.foldl (fun b s => (b ++ sep) ++ s) y := by
  induction rest generalizing y with
  | nil => rfl
  | cons s rest ih =>
    simp only [List.foldl_cons]
    rw [String.append_assoc x y sep, String.append_assoc x (y ++ sep) s]
    exact ih ((y ++ sep) ++ s)

theorem Join_cons_eq_foldl (e : String) (rest : List String) (sep : String) :
    strings.Join (e :: rest) sep = rest.foldl (fun b s => (b ++ sep) ++ s) e := by
  cases rest <;> rfl

theorem Join_cons_cons (e e2 : String) (rest : List String) (sep : String) :
    strings.Join (e :: e2 :: rest) sep = e ++ sep ++ strings.Join (e2 :: rest) sep := by
  rw [Join_cons_eq_foldl, Join_cons_eq_foldl, List.foldl_cons]
  exact foldl_join_append sep rest (e ++ sep) e2

/-- The builder loop of `strings.Join` computes `concatWith`. -/
theorem Join_eq_concatWith (elems : List String) (sep : String) :
    strings.Join elems sep = concatWith sep elems := by
  induction elems with
  | nil => rfl
  | cons e rest ih =>
    cases rest with
    | nil => rfl
    | cons e2 rest => rw [Join_cons_cons, ih, concatWith]

/-- With a non-empty separator the joined text is empty only for no elements or
for the single empty element. -/
theorem Join_eq_empty_iff (elems : List String) (sep : String) (hsep : sep ≠ "") :
    strings.Join elems sep = "" ↔ elems = [] ∨ elems = [""] := by
  match elems with
  | [] => simp [strings.Join]
  | [e] => simp [strings.Join]
  | e :: e2 :: rest =>
    rw [Join_cons_cons]
    simp [append_eq_empty_iff, hsep]

theorem sliceLen_eq_zero_iff (s : StringSlice) :
    s.len = 0 ↔ s = StringSlice.nil ∨ s = StringSlice.of [] := by
  cases s with
  | nil => simp [StringSlice.len, StringSlice.elems]
  | of l => cases l <;> simp [StringSlice.len, StringSlice.elems]

/-! ## Unified error: success and failure -/

/-- C1: for every UAPI envelope, `Error()` is nil exactly when `StatusCode` is
`1`; status `1` gives no error whatever `Errors` holds, and any other status
gives an error. -/
theorem uapi_error_nil_iff (r : BaseUAPIResponse) :
    r.Error = none ↔ r.StatusCode = 1 := by
  unfold BaseUAPIResponse.Error errors.New
  split_ifs <;> simp [*]

/-- C2: for every API1 envelope, `Error()` is nil exactly when the top-level
error string is empty and the event result is `1`. -/
theorem api1_error_nil_iff (r : BaseAPI1Response) :
    r.Error = none ↔ r.ErrorString = "" ∧ r.Event.Result = 1 := by
  unfold BaseAPI1Response.Error errors.New
  split_ifs <;> simp_all

/-- C3: for every API2 envelope, `Error()` is nil exactly when the event result
is `1`, whatever the event reason is. -/
theorem api2_error_nil_iff (r : BaseAPI2Response) :
    r.Error = none ↔ r.Event.Result = 1 := by
  unfold BaseAPI2Response.Error errors.New
  split_ifs <;> simp [*]

/-! ## Unified error: the text of a failure -/

/-- C4: a failing envelope with an empty reason or error set has the error text
`Unknown`: a UAPI envelope whose status is not `1` and whose `Errors` is nil or
empty, an API2 envelope whose event result is not `1` and whose reason is
empty, and an API1 envelope with an empty error string, an event result other
than `1` and an empty reason. -/
theorem unknown_of_empty_reason (u : BaseUAPIResponse) (r2 : BaseAPI2Response)
    (r1 : BaseAPI1Response) :
    (u.StatusCode ≠ 1 → (u.Errors = StringSlice.nil ∨ u.Errors = StringSlice.of []) →
        u.Error = some "Unknown") ∧
    (r2.Event.Result ≠ 1 → r2.Event.Reason = "" → r2.Error = some "Unknown") ∧
    (r1.ErrorString = "" → r1.Event.Result ≠ 1 → r1.Event.Reason = "" →
        r1.Error = some "Unknown") := by
  refine ⟨?_, ?_, ?_⟩
  · intro hs he
    have hlen : u.Errors.len = 0 := (sliceLen_eq_zero_iff u.Errors).2 he
    simp [BaseUAPIResponse.Error, errors.New, hs, hlen]
  · intro hs he
    have hlen : len r2.Event.Reason = 0 := (strLen_eq_zero_iff _).2 he
    simp [BaseAPI2Response.Error, errors.New, hs, hlen]
  · intro h0 hs he
    have hlen : len r1.Event.Reason = 0 := (strLen_eq_zero_iff _).2 he
    simp [BaseAPI1Response.Error, errors.New, h0, hs, hlen]

/-- Witness for C4: status `0` with nil `Errors`, event result `0` with an
empty reason, and an API1 envelope with all three fields empty or failing. -/
theorem unknown_of_empty_reason_witness :
    (BaseUAPIResponse.mk 0 StringSlice.nil StringSlice.nil).Error = some "Unknown" ∧
    (BaseAPI2Response.mk (Event.mk 0 "")).Error = some "Unknown" ∧
    (BaseAPI1Response.mk (Data.mk "x") "" (Event.mk 2 "")).Error = some "Unknown" :=
  have h := unknown_of_empty_reason (BaseUAPIResponse.mk 0 StringSlice.nil StringSlice.nil)
    (BaseAPI2Response.mk (Event.mk 0 "")) (BaseAPI1Response.mk (Data.mk "x") "" (Event.mk 2 ""))
  ⟨h.1 (by decide) (Or.inl rfl), h.2.1 (by decide) rfl, h.2.2 rfl (by decide) rfl⟩

/-- C5: for every API1 envelope with a non-empty top-level error string,
`Error()` is present and its text is exactly that string, whatever the event
result and reason are. -/
theorem api1_error_string_first (r : BaseAPI1Response) (h : r.ErrorString ≠ "") :
    r.Error = some r.ErrorString := by
  simp [BaseAPI1Response.Error, errors.New, h]

/-- Witness for C5: the error string wins over a successful event with a reason. -/
theorem api1_error_string_first_witness :
    (BaseAPI1Response.mk (Data.mk "") "boom" (Event.mk 1 "why")).Error = some "boom" :=
  api1_error_string_first (BaseAPI1Response.mk (Data.mk "") "boom" (Event.mk 1 "why"))
    (by decide)

/-- C6: for every UAPI envelope whose status is not `1` and whose `Errors` list
is non-empty, `Error()` is present and its text is the elements of `Errors` in
order with a single newline between consecutive elements; a one-element list
gives that element unchanged. -/
theorem uapi_error_joined (r : BaseUAPIResponse) (hs : r.StatusCode ≠ 1)
    (he : r.Errors.elems ≠ []) :
    r.Error = some (concatWith "\n" r.Errors.elems) ∧
    (∀ e, r.Errors.elems = [e] → r.Error = some e) := by
  have hlen : r.Errors.len ≠ 0 := by
    simpa [StringSlice.len] using he
  have key : r.Error = some (concatWith "\n" r.Errors.elems) := by
    simp [BaseUAPIResponse.Error, errors.New, hs, hlen, Join_eq_concatWith]
  refine ⟨key, ?_⟩
  intro e h1
  rw [key, h1, concatWith]

/-- Witness for C6: three errors are joined by two newlines. -/
theorem uapi_error_joined_witness :
    (BaseUAPIResponse.mk 0 (StringSlice.of ["a", "b", "c"]) StringSlice.nil).Error
      = some "a\nb\nc" :=
  (uapi_error_joined (BaseUAPIResponse.mk 0 (StringSlice.of ["a", "b", "c"]) StringSlice.nil)
    (by decide) (by decide)).1

/-- C7: for every API2 envelope whose event result is not `1` and whose reason
is non-empty, `Error()` is present and its text is exactly the reason. -/
theorem api2_error_reason (r : BaseAPI2Response) (hs : r.Event.Result ≠ 1)
    (he : r.Event.Reason ≠ "") : r.Error = some r.Event.Reason := by
  have hlen : len r.Event.Reason ≠ 0 := fun h => he ((strLen_eq_zero_iff _).1 h)
  simp [BaseAPI2Response.Error, errors.New, hs, hlen]

/-- Witness for C7: event result `0` with reason `bad user`. -/
theorem api2_error_reason_witness :
    (BaseAPI2Response.mk (Event.mk 0 "bad user")).Error = some "bad user" :=
  api2_error_reason (BaseAPI2Response.mk (Event.mk 0 "bad user")) (by decide) (by decide)

/-! ## Failures are reported with a reason -/

/-- C8 (counterexample): a UAPI envelope with status `0` whose `Errors` is the
one-element list holding the empty string fails with an empty error text. -/
theorem uapi_error_text_empty_counterexample :
    (BaseUAPIResponse.mk 0 (StringSlice.of [""]) StringSlice.nil).StatusCode ≠ 1 ∧
    (BaseUAPIResponse.mk 0 (StringSlice.of [""]) StringSlice.nil).Error = some "" := by
  constructor
  · decide
  · rfl

/-- C8 (amended): for every UAPI envelope exactly one of success (status `1`,
no error) or failure (status other than `1`, an error) holds, and the text of
the error is a non-empty string whenever `Errors` is not the one-element list
holding the empty string. -/
theorem uapi_failure_text (r : BaseUAPIResponse) :
    ((r.StatusCode = 1 ∧ r.Error = none) ∨ (r.StatusCode ≠ 1 ∧ ∃ t, r.Error = some t)) ∧
    (∀ t, r.Error = some t → r.Errors ≠ StringSlice.of [""] → t ≠ "") := by
  by_cases hs : r.StatusCode = 1
  · have hnil : r.Error = none := by simp [BaseUAPIResponse.Error, hs]
    refine ⟨Or.inl ⟨hs, hnil⟩, ?_⟩
    intro t ht
    rw [hnil] at ht
    exact absurd ht (by simp)
  · by_cases hlen : r.Errors.len = 0
    · have hE : r.Error = some "Unknown" := by
        simp [BaseUAPIResponse.Error, errors.New, hs, hlen]
      refine ⟨Or.inr ⟨hs, "Unknown", hE⟩, ?_⟩
      intro t ht _
      rw [hE] at ht
      cases ht
      decide
    · have hE : r.Error = some (strings.Join r.Errors.elems "\n") := by
        simp [BaseUAPIResponse.Error, errors.New, hs, hlen]
      refine ⟨Or.inr ⟨hs, _, hE⟩, ?_⟩
      intro t ht hne h0
      rw [hE] at ht
      cases ht
      rw [Join_eq_empty_iff _ _ (by decide)] at h0
      cases hr : r.Errors with
      | nil => simp [hr, StringSlice.len, StringSlice.elems] at hlen
      | of l =>
        rw [hr] at hlen hne h0
        simp only [StringSlice.elems] at h0
        rcases h0 with h0 | h0
        · simp [StringSlice.len, StringSlice.elems, h0] at hlen
        · exact hne (by rw [h0])

/-- Witness for C8 (amended): status `0` with two empty error strings fails with
the text made of the one newline between them. -/
theorem uapi_failure_text_witness :
    (BaseUAPIResponse.mk 0 (StringSlice.of ["", ""]) StringSlice.nil).Error = some "\n" ∧
    "\n" ≠ "" :=
  ⟨rfl, (uapi_failure_text (BaseUAPIResponse.mk 0 (StringSlice.of ["", ""]) StringSlice.nil)).2
    "\n" rfl (by decide)⟩

/-- C9: for every API2 and every API1 envelope exactly one of success (no error)
or failure holds, and the text of a failure is a non-empty string. -/
theorem api_failure_text_nonempty (r2 : BaseAPI2Response) (r1 : BaseAPI1Response) :
    ((r2.Event.Result = 1 ∧ r2.Error = none) ∨
      (r2.Event.Result ≠ 1 ∧ ∃ t, r2.Error = some t ∧ t ≠ "")) ∧
    (((r1.ErrorString = "" ∧ r1.Event.Result = 1) ∧ r1.Error = none) ∨
      (¬ (r1.ErrorString = "" ∧ r1.Event.Result = 1) ∧
        ∃ t, r1.Error = some t ∧ t ≠ "")) := by
  have hU : "Unknown" ≠ "" := by decide
  constructor
  · by_cases hs : r2.Event.Result = 1
    · left
      exact ⟨hs, by simp [BaseAPI2Response.Error, hs]⟩
    · right
      refine ⟨hs, ?_⟩
      by_cases hlen : len r2.Event.Reason = 0
      · exact ⟨"Unknown", by simp [BaseAPI2Response.Error, errors.New, hs, hlen], hU⟩
      · exact ⟨r2.Event.Reason, by simp [BaseAPI2Response.Error, errors.New, hs, hlen],
          fun h => hlen ((strLen_eq_zero_iff _).2 h)⟩
  · by_cases h0 : r1.ErrorString = ""
    · by_cases hs : r1.Event.Result = 1
      · left
        exact ⟨⟨h0, hs⟩, by simp [BaseAPI1Response.Error, h0, hs]⟩
      · right
        refine ⟨fun h => hs h.2, ?_⟩
        by_cases hlen : len r1.Event.Reason = 0
        · exact ⟨"Unknown", by simp [BaseAPI1Response.Error, errors.New, h0, hs, hlen], hU⟩
        · exact ⟨r1.Event.Reason,
            by simp [BaseAPI1Response.Error, errors.New, h0, hs, hlen],
            fun h => hlen ((strLen_eq_zero_iff _).2 h)⟩
    · right
      exact ⟨fun h => h0 h.1, r1.ErrorString,
        by simp [BaseAPI1Response.Error, errors.New, h0], h0⟩

/-! ## Informational messages -/

/-- C10: for every UAPI envelope, `Message()` is nil exactly when `Messages` is
nil or empty, otherwise it carries the elements of `Messages` in order with a
newline between consecutive ones; envelopes with equal `Messages` have equal
`Message()` whatever their status and errors are. -/
theorem uapi_message (r : BaseUAPIResponse) :
    (r.Message = none ↔ (r.Messages = StringSlice.nil ∨ r.Messages = StringSlice.of [])) ∧
    (¬ (r.Messages = StringSlice.nil ∨ r.Messages = StringSlice.of []) →
      r.Message = some (concatWith "\n" r.Messages.elems)) ∧
    (∀ q : BaseUAPIResponse, q.Messages = r.Messages → q.Message = r.Message) := by
  have hcond : (r.Messages = StringSlice.nil ∨ r.Messages.len = 0) ↔
      (r.Messages = StringSlice.nil ∨ r.Messages = StringSlice.of []) := by
    rw [sliceLen_eq_zero_iff]
    tauto
  refine ⟨?_, ?_, ?_⟩
  · rw [← hcond]
    unfold BaseUAPIResponse.Message errors.New
    split_ifs with h <;> simp [h]
  · intro h
    rw [← hcond] at h
    simp only [BaseUAPIResponse.Message, errors.New, if_neg h, Join_eq_concatWith]
  · intro q hq
    simp only [BaseUAPIResponse.Message, hq]

/-- Witness for C10: status `1`, no errors and the single message `ok` give no
error and the message `ok`, and a failing envelope with the same messages gives
the same message. -/
theorem uapi_message_witness :
    (BaseUAPIResponse.mk 1 (StringSlice.of []) (StringSlice.of ["ok"])).Error = none ∧
    (BaseUAPIResponse.mk 1 (StringSlice.of []) (StringSlice.of ["ok"])).Message = some "ok" ∧
    (BaseUAPIResponse.mk 0 (StringSlice.of ["bad"]) (StringSlice.of ["ok"])).Message
      = (BaseUAPIResponse.mk 1 (StringSlice.of []) (StringSlice.of ["ok"])).Message :=
  have h := uapi_message (BaseUAPIResponse.mk 1 (StringSlice.of []) (StringSlice.of ["ok"]))
  ⟨rfl, h.2.1 (by decide),
    h.2.2 (BaseUAPIResponse.mk 0 (StringSlice.of ["bad"]) (StringSlice.of ["ok"])) rfl⟩

/-! ## Helper lemmas: splitting at a one-character separator -/

theorem cutFirst_single_none (c : Char) (s : List Char) (h : c ∉ s) :
    strings.cutFirst [c] s = none := by
  induction s with
  | nil => simp [strings.cutFirst]
  | cons d ds ih =>
    have hd : ¬ (c = d) := fun e => h (by simp [e])
    have hds : c ∉ ds := fun e => h (by simp [e])
    have hd2 : ¬ (d = c) := fun e => hd e.symm
    simp [strings.cutFirst, List.isPrefixOf, ih hds, hd, hd2]

theorem cutFirst_single_some (c : Char) (l r : List Char) (h : c ∉ l) :
    strings.cutFirst [c] (l ++ c :: r) = some (l, r) := by
  induction l with
  | nil => simp [strings.cutFirst, List.isPrefixOf]
  | cons d ds ih =>
    have hd : ¬ (c = d) := fun e => h (by simp [e])
    have hds : c ∉ ds := fun e => h (by simp [e])
    have hd2 : ¬ (d = c) := fun e => hd e.symm
    simp [strings.cutFirst, List.isPrefixOf, ih hds, hd, hd2]

theorem exists_first_split (c : Char) (s : List Char) (h : c ∈ s) :
    ∃ l r, s = l ++ c :: r ∧ c ∉ l := by
  induction s with
  | nil => simp at h
  | cons d ds ih =>
    by_cases hd : d = c
    · exact ⟨[], ds, by simp [hd], by simp⟩
    · have hds : c ∈ ds := by
        rcases List.mem_cons.1 h with e | e
        · exact absurd e.symm hd
        · exact e
      obtain ⟨l, r, hs, hl⟩ := ih hds
      refine ⟨d :: l, r, by simp [hs], ?_⟩
      intro hm
      rcases List.mem_cons.1 hm with e | e
      · exact hd e.symm
      · exact hl e

theorem strLen_pos_of_ne (s : String) (h : s ≠ "") : 0 < len s := by
  rcases Nat.eq_zero_or_pos (len s) with h0 | h0
  · exact absurd ((strLen_eq_zero_iff s).1 h0) h
  · exact h0

/-- `SplitN(k, "=", 2)` of a key without `=` is the key alone. -/
theorem SplitN_eq_of_not_mem (k : String) (h : '=' ∉ k.data) :
    strings.SplitN k "=" 2 = [k] := by
  have hsep : ("=" : String).data = ['='] := rfl
  have hne : ¬ (("=" : String) = "") := by decide
  have hcut := cutFirst_single_none '=' k.data h
  by_cases hk : k = ""
  · subst hk
    rfl
  · have hpos := strLen_pos_of_ne k hk
    have hn : ¬ (2 > len k + 1) := by omega
    simp [strings.SplitN, strings.genSplit, hne, hn, hsep, strings.splitLoop, hcut]

/-- `SplitN(k, "=", 2)` of a key with `=` is the text before the first `=` and
the text after it. -/
theorem SplitN_eq_of_split (l r : String) (h : '=' ∉ l.data) :
    strings.SplitN (l ++ "=" ++ r) "=" 2 = [l, r] := by
  have hsep : ("=" : String).data = ['='] := rfl
  have hne : ¬ (("=" : String) = "") := by decide
  have hdata : (l ++ "=" ++ r).data = l.data ++ '=' :: r.data := by
    simp [String.data_append, hsep]
  have hcut := cutFirst_single_some '=' l.data r.data h
  have hk : l ++ "=" ++ r ≠ "" := by
    intro e
    have := congrArg String.data e
    rw [hdata] at this
    simp at this
  have hpos := strLen_pos_of_ne _ hk
  have hn : ¬ (2 > len (l ++ "=" ++ r) + 1) := by omega
  have hn2 : ¬ (len (l ++ "=" ++ r) + 1 < 2) := by omega
  simp [strings.SplitN, strings.genSplit, hne, hn2, hsep, hdata, strings.splitLoop, hcut]

/-- Every key is of one of the two shapes: without `=`, or `l ++ "=" ++ r` with
no `=` in `l`. -/
theorem key_shape (k : String) :
    '=' ∉ k.data ∨ ∃ l r : String, k = l ++ "=" ++ r ∧ '=' ∉ l.data := by
  by_cases h : '=' ∈ k.data
  · right
    obtain ⟨l, r, hs, hl⟩ := exists_first_split '=' k.data h
    refine ⟨String.mk l, String.mk r, ?_, hl⟩
    apply String.ext
    have hsep : ("=" : String).data = ['='] := rfl
    simp [String.data_append, hsep, hs]
  · left
    exact h

theorem SplitN_length (k : String) :
    (strings.SplitN k "=" 2).length = 1 ∨ (strings.SplitN k "=" 2).length = 2 := by
  rcases key_shape k with h | ⟨l, r, hk, hl⟩
  · left
    rw [SplitN_eq_of_not_mem k h]
    rfl
  · right
    rw [hk, SplitN_eq_of_split l r hl]
    rfl

/-! ## Helper lemmas: the multimap of encoded values -/

theorem lookup_Add (vals : url.Values) (key value k : String) :
    url.Values.lookup (url.Values.Add vals key value) k
      = if k = key then url.Values.lookup vals k ++ [value] else url.Values.lookup vals k := by
  induction vals with
  | nil =>
    by_cases h : k = key
    · simp [url.Values.Add, url.Values.lookup, h]
    · have h2 : ¬ (key = k) := fun e => h e.symm
      simp [url.Values.Add, url.Values.lookup, h, h2]
  | cons e rest ih =>
    obtain ⟨k0, vs⟩ := e
    by_cases h0 : k0 = key
    · by_cases h : k = key
      · simp [url.Values.Add, url.Values.lookup, h0, h]
      · have h2 : ¬ (key = k) := fun e => h e.symm
        simp [url.Values.Add, url.Values.lookup, h0, h, h2]
    · by_cases h1 : k0 = k
      · have h : ¬ (k = key) := fun e => h0 (h1.trans e)
        simp [url.Values.Add, url.Values.lookup, h0, h1, h]
      · simp [url.Values.Add, url.Values.lookup, h0, h1, ih]

theorem count_Add (vals : url.Values) (key value : String) :
    url.Values.count (url.Values.Add vals key value) = url.Values.count vals + 1 := by
  induction vals with
  | nil => simp [url.Values.Add, url.Values.count]
  | cons e rest ih =>
    obtain ⟨k0, vs⟩ := e
    by_cases h0 : k0 = key
    · simp [url.Values.Add, url.Values.count, h0]
      omega
    · simp only [url.Values.count] at ih
      simp [url.Values.Add, url.Values.count, h0, ih]
      omega

theorem Add_of_not_mem (vals : url.Values) (key value : String)
    (h : key ∉ url.Values.keys vals) :
    url.Values.Add vals key value = vals ++ [(key, [value])] := by
  induction vals with
  | nil => rfl
  | cons e rest ih =>
    obtain ⟨k0, vs⟩ := e
    have h0 : ¬ (k0 = key) := fun e => h (by simp [url.Values.keys, e])
    have hr : key ∉ url.Values.keys rest := fun e => h (by
      simp only [url.Values.keys, List.map_cons, List.mem_cons]
      exact Or.inr e)
    simp [url.Values.Add, h0, ih hr]

/-! ## Helper lemmas: the body of the loop of `Values` -/

theorem rangeBody_one_of_not_mem (vals : url.Values) (k : String) (x : Value)
    (h : '=' ∉ k.data) :
    Args.rangeBody "1" vals (k, x) = url.Values.Add vals k "" := by
  simp [Args.rangeBody, SplitN_eq_of_not_mem k h]

theorem rangeBody_one_of_split (vals : url.Values) (l r : String) (x : Value)
    (h : '=' ∉ l.data) :
    Args.rangeBody "1" vals (l ++ "=" ++ r, x) = url.Values.Add vals l r := by
  simp [Args.rangeBody, SplitN_eq_of_split l r h]

theorem rangeBody_other (apiVersion : String) (h : apiVersion ≠ "1") (vals : url.Values)
    (e : String × Value) :
    Args.rangeBody apiVersion vals e = url.Values.Add vals e.1 (fmt.Sprintf_v e.2) := by
  simp [Args.rangeBody, h]

/-- Every round of the loop adds one value under one key. -/
theorem rangeBody_is_Add (apiVersion : String) (e : String × Value) :
    ∃ key value, ∀ vals : url.Values,
      Args.rangeBody apiVersion vals e = url.Values.Add vals key value := by
  obtain ⟨k, x⟩ := e
  by_cases hv : apiVersion = "1"
  · subst hv
    rcases key_shape k with h | ⟨l, r, hk, hl⟩
    · exact ⟨k, "", fun vals => rangeBody_one_of_not_mem vals k x h⟩
    · subst hk
      exact ⟨l, r, fun vals => rangeBody_one_of_split vals l r x hl⟩
  · exact ⟨k, fmt.Sprintf_v x, fun vals => rangeBody_other apiVersion hv vals (k, x)⟩

theorem lookup_rangeBody_mono (apiVersion : String) (vals : url.Values) (e : String × Value)
    (key value : String) (h : value ∈ url.Values.lookup vals key) :
    value ∈ url.Values.lookup (Args.rangeBody apiVersion vals e) key := by
  obtain ⟨k, v, hb⟩ := rangeBody_is_Add apiVersion e
  rw [hb vals, lookup_Add]
  split_ifs
  · exact List.mem_append_left _ h
  · exact h

theorem lookup_foldl_mono (apiVersion : String) (a : Args) (vals : url.Values)
    (key value : String) (h : value ∈ url.Values.lookup vals key) :
    value ∈ url.Values.lookup (a.foldl (Args.rangeBody apiVersion) vals) key := by
  induction a generalizing vals with
  | nil => exact h
  | cons e rest ih =>
    rw [List.foldl_cons]
    exact ih _ (lookup_rangeBody_mono apiVersion vals e key value h)

/-- A value added under a key in the round of one entry is still there at the
end of the loop. -/
theorem lookup_foldl_of_mem (apiVersion : String) (a : Args) (e : String × Value)
    (key value : String) (he : e ∈ a)
    (hb : ∀ vals : url.Values,
      Args.rangeBody apiVersion vals e = url.Values.Add vals key value)
    (vals : url.Values) :
    value ∈ url.Values.lookup (a.foldl (Args.rangeBody apiVersion) vals) key := by
  induction a generalizing vals with
  | nil => simp at he
  | cons e0 rest ih =>
    rw [List.foldl_cons]
    rcases List.mem_cons.1 he with h | h
    · subst h
      apply lookup_foldl_mono
      rw [hb vals, lookup_Add]
      simp
    · exact ih h _

theorem count_foldl (apiVersion : String) (a : Args) (vals : url.Values) :
    url.Values.count (a.foldl (Args.rangeBody apiVersion) vals)
      = url.Values.count vals + a.length := by
  induction a generalizing vals with
  | nil => simp
  | cons e rest ih =>
    obtain ⟨k, v, hb⟩ := rangeBody_is_Add apiVersion e
    rw [List.foldl_cons, ih, hb vals, count_Add, List.length_cons]
    omega

/-- Under the API1 rule the loop reads the keys only. -/
theorem foldl_one_keys (a b : Args) (h : a.keys = b.keys) (vals : url.Values) :
    a.foldl (Args.rangeBody "1") vals = b.foldl (Args.rangeBody "1") vals := by
  induction a generalizing b vals with
  | nil =>
    cases b with
    | nil => rfl
    | cons e rest => simp [Args.keys] at h
  | cons e rest ih =>
    cases b with
    | nil => simp [Args.keys] at h
    | cons e2 rest2 =>
      simp only [Args.keys, List.map_cons, List.cons.injEq] at h
      obtain ⟨h1, h2⟩ := h
      have hb : ∀ vals : url.Values,
          Args.rangeBody "1" vals e = Args.rangeBody "1" vals e2 := by
        intro vals
        simp [Args.rangeBody, h1]
      rw [List.foldl_cons, List.foldl_cons, hb vals]
      exact ih rest2 h2 _

/-- Under the UAPI/API2 rule, entries whose keys are new and distinct are
appended one by one, each with the text of its value. -/
theorem foldl_other_append (apiVersion : String) (hv : apiVersion ≠ "1") (a : Args)
    (vals : url.Values) (hnd : a.keys.Nodup)
    (hdis : ∀ k, k ∈ a.keys → k ∉ url.Values.keys vals) :
    a.foldl (Args.rangeBody apiVersion) vals
      = vals ++ a.map (fun e => (e.1, [fmt.Sprintf_v e.2])) := by
  induction a generalizing vals with
  | nil => simp
  | cons e rest ih =>
    simp only [Args.keys, List.map_cons, List.nodup_cons] at hnd
    have hnew : e.1 ∉ url.Values.keys vals := hdis e.1 (by simp [Args.keys])
    rw [List.foldl_cons, rangeBody_other apiVersion hv, Add_of_not_mem _ _ _ hnew]
    rw [ih _ hnd.2]
    · simp
    · intro k hk hin
      simp only [url.Values.keys, List.map_append, List.map_cons, List.map_nil,
        List.mem_append, List.mem_singleton] at hin
      rcases hin with hin | hin
      · exact hdis k (by simp only [Args.keys, List.map_cons, List.mem_cons]; exact Or.inr hk) hin
      · exact hnd.1 (hin ▸ hk)

theorem Values_other_eq_map (apiVersion : String) (hv : apiVersion ≠ "1") (a : Args)
    (hwf : a.WellFormed) :
    a.Values apiVersion = a.map (fun e => (e.1, [fmt.Sprintf_v e.2])) := by
  have h := foldl_other_append apiVersion hv a [] hwf (by simp [url.Values.keys])
  simpa [Args.Values] using h

theorem lookup_map_of_mem (f : Value → String) (a : Args) (hnd : a.keys.Nodup)
    (k : String) (x : Value) (h : (k, x) ∈ a) :
    url.Values.lookup (a.map (fun e => (e.1, [f e.2]))) k = [f x] := by
  induction a with
  | nil => simp at h
  | cons e rest ih =>
    simp only [Args.keys, List.map_cons, List.nodup_cons] at hnd
    rcases List.mem_cons.1 h with h1 | h1
    · subst h1
      simp [url.Values.lookup]
    · have hk : k ∈ rest.map Prod.fst := List.mem_map.2 ⟨(k, x), h1, rfl⟩
      have hne : ¬ (e.1 = k) := fun e1 => hnd.1 (e1 ▸ hk)
      simp only [List.map_cons, url.Values.lookup, hne, if_false]
      exact ih hnd.2 h1

/-! ## Encoding of the call arguments under the API1 rule -/

/-- C11: for every `Args` and every key of it that contains `=`, `Values("1")`
holds the text after the first `=` of the key as a value under the text before
that `=`: the key is `l ++ "=" ++ r` for some `l` without `=`, and for every
such way of writing the key, `r` is a value under `l`. -/
theorem values_api1_split_key (a : Args) (k : String) (hk : k ∈ a.keys)
    (heq : '=' ∈ k.data) :
    (∃ l r : String, k = l ++ "=" ++ r ∧ '=' ∉ l.data ∧
      r ∈ url.Values.lookup (a.Values "1") l) ∧
    (∀ l r : String, k = l ++ "=" ++ r → '=' ∉ l.data →
      r ∈ url.Values.lookup (a.Values "1") l) := by
  obtain ⟨e, he, hek⟩ := List.mem_map.1 hk
  obtain ⟨k0, x⟩ := e
  simp only at hek
  subst hek
  have hall : ∀ l r : String, k0 = l ++ "=" ++ r → '=' ∉ l.data →
      r ∈ url.Values.lookup (a.Values "1") l := by
    intro l r hlr hl
    subst hlr
    exact lookup_foldl_of_mem "1" a (l ++ "=" ++ r, x) l r he
      (fun vals => rangeBody_one_of_split vals l r x hl) []
  refine ⟨?_, hall⟩
  rcases key_shape k0 with h | ⟨l, r, hlr, hl⟩
  · exact absurd heq h
  · exact ⟨l, r, hlr, hl, hall l r hlr hl⟩

/-- Witness for C11: the keys `foo=bar` and `a=b=c`, and the encoding of the
arguments `user=bob` (mapped to a string) and `verbose` (mapped to `5`). -/
theorem values_api1_split_key_witness :
    "bar" ∈ url.Values.lookup (Args.Values [("foo=bar", Value.int 1)] "1") "foo" ∧
    "b=c" ∈ url.Values.lookup (Args.Values [("a=b=c", Value.bool true)] "1") "a" ∧
    Args.Values [("user=bob", Value.str "ignored"), ("verbose", Value.int 5)] "1"
      = [("user", ["bob"]), ("verbose", [""])] :=
  ⟨(values_api1_split_key [("foo=bar", Value.int 1)] "foo=bar" (by decide) (by decide)).2
      "foo" "bar" (by decide) (by decide),
    (values_api1_split_key [("a=b=c", Value.bool true)] "a=b=c" (by decide) (by decide)).2
      "a" "b=c" (by decide) (by decide),
    by decide⟩

/-- C12: for every `Args` and every key of it that contains no `=`, the empty
key included, `Values("1")` holds the empty string as a value under that key,
whatever the key is mapped to. -/
theorem values_api1_plain_key (a : Args) (k : String) (hk : k ∈ a.keys)
    (hne : '=' ∉ k.data) :
    "" ∈ url.Values.lookup (a.Values "1") k := by
  obtain ⟨e, he, hek⟩ := List.mem_map.1 hk
  obtain ⟨k0, x⟩ := e
  simp only at hek
  subst hek
  exact lookup_foldl_of_mem "1" a (k0, x) k0 "" he
    (fun vals => rangeBody_one_of_not_mem vals k0 x hne) []

/-- Witness for C12: the key `verbose` mapped to `5` and the empty key. -/
theorem values_api1_plain_key_witness :
    "" ∈ url.Values.lookup
      (Args.Values [("verbose", Value.int 5), ("", Value.str "x")] "1") "verbose" ∧
    "" ∈ url.Values.lookup
      (Args.Values [("verbose", Value.int 5), ("", Value.str "x")] "1") "" :=
  ⟨values_api1_plain_key [("verbose", Value.int 5), ("", Value.str "x")] "verbose"
      (by decide) (by decide),
    values_api1_plain_key [("verbose", Value.int 5), ("", Value.str "x")] ""
      (by decide) (by decide)⟩

/-- C13: under the API1 rule the mapped values are discarded: two `Args` with
the same keys, visited in the same order, have the same `Values("1")`. -/
theorem values_api1_ignores_values (a b : Args) (h : a.keys = b.keys) :
    a.Values "1" = b.Values "1" :=
  foldl_one_keys a b h []

/-- Witness for C13: the same two keys with different strings, numbers and
booleans as values. -/
theorem values_api1_ignores_values_witness :
    Args.Values [("user=bob", Value.str "ignored"), ("verbose", Value.int 5)] "1"
      = Args.Values [("user=bob", Value.bool true), ("verbose", Value.str "zzz")] "1" :=
  values_api1_ignores_values
    [("user=bob", Value.str "ignored"), ("verbose", Value.int 5)]
    [("user=bob", Value.bool true), ("verbose", Value.str "zzz")] (by decide)


theorem foldl_other_versions (a : Args) (v w : String) (hv : v ≠ "1") (hw : w ≠ "1")
    (vals : url.Values) :
    a.foldl (Args.rangeBody v) vals = a.foldl (Args.rangeBody w) vals := by
  induction a generalizing vals with
  | nil => rfl
  | cons e rest ih =>
    rw [List.foldl_cons, List.foldl_cons, rangeBody_other v hv, rangeBody_other w hw]
    exact ih _

theorem lookup_map_of_not_mem (f : Value → String) (a : Args) (k : String)
    (h : k ∉ a.keys) :
    url.Values.lookup (a.map (fun e => (e.1, [f e.2]))) k = [] := by
  induction a with
  | nil => rfl
  | cons e rest ih =>
    have hne : ¬ (e.1 = k) := fun e1 => h (by simp [Args.keys, e1])
    have hr : k ∉ Args.keys rest := fun e1 => h (by
      simp only [Args.keys, List.map_cons, List.mem_cons]
      exact Or.inr e1)
    simp only [List.map_cons, url.Values.lookup, hne, if_false]
    exact ih hr

/-- With distinct keys the value found under a key does not depend on the
order of the entries. -/
theorem lookup_map_perm (f : Value → String) (a b : Args) (hwf : a.WellFormed)
    (hb : b.Perm a) (k : String) :
    url.Values.lookup (b.map (fun e => (e.1, [f e.2]))) k
      = url.Values.lookup (a.map (fun e => (e.1, [f e.2]))) k := by
  have hwfb : b.keys.Nodup := (List.Perm.nodup_iff (List.Perm.map Prod.fst hb)).2 hwf
  by_cases hk : k ∈ a.keys
  · obtain ⟨e, he, hek⟩ := List.mem_map.1 hk
    obtain ⟨k0, x⟩ := e
    simp only at hek
    subst hek
    rw [lookup_map_of_mem f a hwf k0 x he, lookup_map_of_mem f b hwfb k0 x (hb.mem_iff.2 he)]
  · have hkb : k ∉ b.keys := fun h => hk ((List.Perm.map Prod.fst hb).mem_iff.1 h)
    rw [lookup_map_of_not_mem f a k hk, lookup_map_of_not_mem f b k hkb]

/-! ## Encoding of the call arguments under the UAPI/API2 rule -/

/-- C14: for every `Args` and every `apiVersion` other than `"1"`, the keys of
`Values(apiVersion)` are the keys of the arguments, kept as they are, and each
key holds exactly one value, the default text of what it is mapped to: a string
itself, an integer its decimal text, a boolean `true` or `false`. -/
theorem values_other_one_value_per_key (a : Args) (hwf : a.WellFormed)
    (apiVersion : String) (hv : apiVersion ≠ "1") :
    (∀ k, k ∈ url.Values.keys (a.Values apiVersion) ↔ k ∈ a.keys) ∧
    (∀ k x, (k, x) ∈ a →
      url.Values.lookup (a.Values apiVersion) k = [fmt.Sprintf_v x]) ∧
    (∀ k s, (k, Value.str s) ∈ a → url.Values.lookup (a.Values apiVersion) k = [s]) ∧
    (∀ k i, (k, Value.int i) ∈ a →
      url.Values.lookup (a.Values apiVersion) k = [toString i]) ∧
    (∀ k, (k, Value.bool true) ∈ a →
      url.Values.lookup (a.Values apiVersion) k = ["true"]) ∧
    (∀ k, (k, Value.bool false) ∈ a →
      url.Values.lookup (a.Values apiVersion) k = ["false"]) := by
  have hmap := Values_other_eq_map apiVersion hv a hwf
  have hone : ∀ k x, (k, x) ∈ a →
      url.Values.lookup (a.Values apiVersion) k = [fmt.Sprintf_v x] := by
    intro k x hx
    rw [hmap]
    exact lookup_map_of_mem fmt.Sprintf_v a hwf k x hx
  refine ⟨?_, hone, ?_, ?_, ?_, ?_⟩
  · intro k
    rw [hmap]
    simp [url.Values.keys, Args.keys]
  · intro k s hx
    exact hone k _ hx
  · intro k i hx
    exact hone k _ hx
  · intro k hx
    exact hone k _ hx
  · intro k hx
    exact hone k _ hx

/-- Witness for C14: a string, a positive and a negative integer, a boolean and
a key containing `=`, encoded under the version `"3"`. -/
theorem values_other_one_value_per_key_witness :
    Args.Values [("name", Value.str "bob"), ("n", Value.int 42), ("neg", Value.int (-7)),
        ("flag", Value.bool true), ("a=b", Value.str "x")] "3"
      = [("name", ["bob"]), ("n", ["42"]), ("neg", ["-7"]), ("flag", ["true"]),
        ("a=b", ["x"])] ∧
    url.Values.lookup (Args.Values [("name", Value.str "bob"), ("n", Value.int 42),
        ("neg", Value.int (-7)), ("flag", Value.bool true), ("a=b", Value.str "x")] "3") "neg"
      = ["-7"] :=
  ⟨by decide,
    (values_other_one_value_per_key [("name", Value.str "bob"), ("n", Value.int 42),
        ("neg", Value.int (-7)), ("flag", Value.bool true), ("a=b", Value.str "x")]
      (by decide) "3" (by decide)).2.2.2.1 "neg" (-7) (by decide)⟩

/-- C19: `Values` adds one value for every entry: for every `Args` and every
`apiVersion` the values held over all keys of the result are as many as the
entries, and `SplitN(k, "=", 2)` has one or two parts for every key, so that
one of the two branches of the API1 rule is always taken. -/
theorem values_count_eq_length (a : Args) (apiVersion : String) :
    url.Values.count (a.Values apiVersion) = a.length ∧
    (∀ k : String, (strings.SplitN k "=" 2).length = 1 ∨
      (strings.SplitN k "=" 2).length = 2) := by
  refine ⟨?_, SplitN_length⟩
  have h := count_foldl apiVersion a []
  simpa [Args.Values, url.Values.count] using h

/-- C20: only the version `"1"` selects the API1 rule: for every `Args` and any
two versions other than `"1"` the two encodings are equal, and both are the
direct encoding of every key with the text of its value, in whatever order the
entries are visited. -/
theorem values_other_versions_agree (a : Args) (v w : String)
    (hv : v ≠ "1") (hw : w ≠ "1") :
    a.Values v = a.Values w ∧
    (a.WellFormed → a.Values v = directEncoding a ∧ a.Values w = directEncoding a) ∧
    (a.WellFormed → ∀ b : Args, b.Perm a → ∀ k,
      url.Values.lookup (b.Values w) k = url.Values.lookup (directEncoding a) k) := by
  refine ⟨?_, ?_, ?_⟩
  · exact foldl_other_versions a v w hv hw []
  · intro hwf
    exact ⟨Values_other_eq_map v hv a hwf, Values_other_eq_map w hw a hwf⟩
  · intro hwf b hb k
    have hwfb : b.WellFormed := (List.Perm.nodup_iff (List.Perm.map Prod.fst hb)).2 hwf
    rw [Values_other_eq_map w hw b hwfb]
    exact lookup_map_perm fmt.Sprintf_v a b hwf hb k

/-- Witness for C20: the versions `"01"` and `" 1"` on a key containing `=`, and
the version `"2"` visiting the entries in the other order. -/
theorem values_other_versions_agree_witness :
    Args.Values [("user=bob", Value.str "x"), ("verbose", Value.int 5)] "01"
      = Args.Values [("user=bob", Value.str "x"), ("verbose", Value.int 5)] " 1" ∧
    Args.Values [("user=bob", Value.str "x"), ("verbose", Value.int 5)] "01"
      = [("user=bob", ["x"]), ("verbose", ["5"])] ∧
    url.Values.lookup
        (Args.Values [("verbose", Value.int 5), ("user=bob", Value.str "x")] "2") "verbose"
      = url.Values.lookup
        (directEncoding [("user=bob", Value.str "x"), ("verbose", Value.int 5)]) "verbose" :=
  have h := values_other_versions_agree
    [("user=bob", Value.str "x"), ("verbose", Value.int 5)] "01" " 1" (by decide) (by decide)
  have h2 := values_other_versions_agree
    [("user=bob", Value.str "x"), ("verbose", Value.int 5)] "01" "2" (by decide) (by decide)
  ⟨h.1, (h.2.1 (by decide)).1,
    h2.2.2 (by decide) [("verbose", Value.int 5), ("user=bob", Value.str "x")]
      (List.Perm.swap _ _ _) "verbose"⟩

/-! ## The facade and its gateway -/

/-- C15: for every gateway, `NewApi(gw)` wraps exactly `gw`; `Close()` of an
`Api` without a gateway returns no error and touches nothing, and otherwise it
is one call of the gateway's `Close()`: the same result, nil or the same error,
and the state that this one call leaves. -/
theorem api_close_delegates {σ : Type} (gw : Option (ApiGateway σ)) (s : σ) :
    (NewApi gw).Gateway = gw ∧
    (gw = none → (NewApi gw).Close s = (none, s)) ∧
    (∀ g : ApiGateway σ, gw = some g → (NewApi gw).Close s = g.Close s) := by
  refine ⟨rfl, ?_, ?_⟩
  · intro h
    subst h
    rfl
  · intro g h
    subst h
    rfl

/-- Witness for C15: without a gateway nothing happens; the counting gateway is
called once; the error of a gateway closed before comes back as it is. -/
theorem api_close_delegates_witness :
    (NewApi (none : Option (ApiGateway Nat))).Close 7 = (none, 7) ∧
    (NewApi (some countingGateway)).Close 3 = (none, 4) ∧
    (NewApi (some sessionGateway)).Close 1 = (some "session already closed", 2) :=
  ⟨(api_close_delegates (none : Option (ApiGateway Nat)) 7).2.1 rfl,
    (api_close_delegates (some countingGateway) 3).2.2 countingGateway rfl,
    (api_close_delegates (some sessionGateway) 1).2.2 sessionGateway rfl⟩

/-- C16 (counterexample): on the facade of a gateway whose session can be
released once, the first `Close()` returns no error and the second returns the
gateway's error. -/
theorem api_close_twice_counterexample :
    ((NewApi (some sessionGateway)).Close 0).1 = none ∧
    ((NewApi (some sessionGateway)).Close ((NewApi (some sessionGateway)).Close 0).2).1
      = some "session already closed" := by
  constructor <;> rfl

/-- C16 (amended): two successive calls of `Close()` on the same `Api` both
return no error when the `Api` has no gateway, and when it has one they return
what two successive calls of the gateway's `Close()` return, so no error both
times exactly when the gateway returns none on both. -/
theorem api_close_twice {σ : Type} (a : Api σ) (s : σ) :
    (a.Gateway = none →
      (a.Close s).1 = none ∧ (a.Close (a.Close s).2).1 = none) ∧
    (∀ g : ApiGateway σ, a.Gateway = some g →
      (a.Close s).1 = (g.Close s).1 ∧
      (a.Close (a.Close s).2).1 = (g.Close (g.Close s).2).1 ∧
      (((a.Close s).1 = none ∧ (a.Close (a.Close s).2).1 = none) ↔
        ((g.Close s).1 = none ∧ (g.Close (g.Close s).2).1 = none))) := by
  constructor
  · intro h
    simp [Api.Close, h]
  · intro g h
    simp [Api.Close, h]

/-- Witness for C16 (amended): no gateway, and a gateway that never fails. -/
theorem api_close_twice_witness :
    (((Api.mk (none : Option (ApiGateway Nat))).Close 0).1 = none ∧
      ((Api.mk (none : Option (ApiGateway Nat))).Close
        ((Api.mk (none : Option (ApiGateway Nat))).Close 0).2).1 = none) ∧
    (((Api.mk (some countingGateway)).Close 0).1 = none ∧
      ((Api.mk (some countingGateway)).Close
        ((Api.mk (some countingGateway)).Close 0).2).1 = none) :=
  ⟨(api_close_twice (Api.mk (none : Option (ApiGateway Nat))) 0).1 rfl,
    ((api_close_twice (Api.mk (some countingGateway)) 0).2 countingGateway rfl).2.2.2
      ⟨rfl, rfl⟩⟩

/-! ## API1 and API2 share the rule of the event record -/

/-- C18: for every API1 envelope with an empty error string, `Error()` is the
`Error()` of the API2 envelope with the same event record, whatever the `data`
record holds. -/
theorem api1_error_eq_api2 (r : BaseAPI1Response) (h : r.ErrorString = "") :
    r.Error = (BaseAPI2Response.mk r.Event).Error := by
  unfold BaseAPI1Response.Error BaseAPI2Response.Error
  by_cases hs : r.Event.Result = 1 <;> simp [h, hs]

/-- Witness for C18: empty error string, event result `0` with the reason
`disk full`. -/
theorem api1_error_eq_api2_witness :
    (BaseAPI1Response.mk (Data.mk "") "" (Event.mk 0 "disk full")).Error = some "disk full" ∧
    (BaseAPI1Response.mk (Data.mk "other") "" (Event.mk 0 "disk full")).Error
      = (BaseAPI2Response.mk (Event.mk 0 "disk full")).Error :=
  ⟨api1_error_eq_api2 (BaseAPI1Response.mk (Data.mk "") "" (Event.mk 0 "disk full")) rfl,
    api1_error_eq_api2 (BaseAPI1Response.mk (Data.mk "other") "" (Event.mk 0 "disk full")) rfl⟩

/-! ## Lines of a failure text -/

theorem utf8go_ge_length (cs : List Char) : cs.length ≤ String.utf8ByteSize.go cs := by
  induction cs with
  | nil => simp [String.utf8ByteSize.go]
  | cons c cs ih =>
    have hc := Char.utf8Size_pos c
    simp only [String.utf8ByteSize.go, List.length_cons]
    omega

theorem length_le_len (s : String) : s.length ≤ len s := by
  cases s with
  | mk d => exact utf8go_ge_length d

theorem concatWith_data_cons (sep e e2 : String) (rest : List String) :
    (concatWith sep (e :: e2 :: rest)).data
      = e.data ++ (sep.data ++ (concatWith sep (e2 :: rest)).data) := by
  simp [concatWith, String.data_append]

theorem length_concatWith (sep : String) (c : Char) (hsep : sep.data = [c])
    (rest : List String) (e : String) :
    rest.length ≤ (concatWith sep (e :: rest)).data.length := by
  induction rest generalizing e with
  | nil => simp
  | cons e2 rest ih =>
    have := ih e2
    rw [concatWith_data_cons, hsep]
    simp only [List.length_append, List.length_cons, List.length_nil]
    omega

/-- The split loop takes the joined text apart again when no element holds the
separator. -/
theorem splitLoop_concatWith (sep : String) (c : Char) (hsep : sep.data = [c])
    (rest : List String) (e : String) (cuts : Nat) (hc : rest.length ≤ cuts)
    (hno : ∀ x ∈ e :: rest, c ∉ x.data) :
    strings.splitLoop [c] cuts (concatWith sep (e :: rest)).data
      = (e :: rest).map String.data := by
  induction rest generalizing e cuts with
  | nil =>
    have he : c ∉ e.data := hno e (by simp)
    cases cuts with
    | zero => simp [strings.splitLoop, concatWith]
    | succ n => simp [strings.splitLoop, concatWith, cutFirst_single_none c e.data he]
  | cons e2 rest ih =>
    have he : c ∉ e.data := hno e (by simp)
    cases cuts with
    | zero => simp at hc
    | succ n =>
      have hn : rest.length ≤ n := by simpa using hc
      have hno2 : ∀ x ∈ e2 :: rest, c ∉ x.data := fun x hx => hno x (List.mem_cons_of_mem _ hx)
      rw [concatWith_data_cons, hsep]
      simp only [List.singleton_append, strings.splitLoop,
        cutFirst_single_some c e.data _ he, ih e2 n hn hno2, List.map_cons]

/-- The count loop finds one separator for every element after the first. -/
theorem countLoop_concatWith (sep : String) (c : Char) (hsep : sep.data = [c])
    (rest : List String) (e : String) (fuel : Nat) (hc : rest.length ≤ fuel)
    (hno : ∀ x ∈ e :: rest, c ∉ x.data) :
    strings.countLoop [c] fuel (concatWith sep (e :: rest)).data = rest.length := by
  induction rest generalizing e fuel with
  | nil =>
    have he : c ∉ e.data := hno e (by simp)
    cases fuel with
    | zero => simp [strings.countLoop]
    | succ n => simp [strings.countLoop, concatWith, cutFirst_single_none c e.data he]
  | cons e2 rest ih =>
    have he : c ∉ e.data := hno e (by simp)
    cases fuel with
    | zero => simp at hc
    | succ n =>
      have hn : rest.length ≤ n := by simpa using hc
      have hno2 : ∀ x ∈ e2 :: rest, c ∉ x.data := fun x hx => hno x (List.mem_cons_of_mem _ hx)
      rw [concatWith_data_cons, hsep]
      simp only [List.singleton_append, strings.countLoop,
        cutFirst_single_some c e.data _ he, ih e2 n hn hno2, List.length_cons]

/-- Splitting the newline join of a non-empty list whose elements hold no
newline gives the list back. -/
theorem Split_Join_newline (elems : List String) (hne : elems ≠ [])
    (hno : ∀ x ∈ elems, '\n' ∉ x.data) :
    strings.Split (strings.Join elems "\n") "\n" = elems := by
  cases elems with
  | nil => exact absurd rfl hne
  | cons e rest =>
    have hsep : ("\n" : String).data = ['\n'] := rfl
    have hsepne : ¬ (("\n" : String) = "") := by decide
    rw [Join_eq_concatWith]
    have hlen := length_concatWith "\n" '\n' hsep rest e
    have hbytes := length_le_len (concatWith "\n" (e :: rest))
    have hcount : strings.Count (concatWith "\n" (e :: rest)) "\n" = rest.length := by
      simp only [strings.Count, hsepne, if_false, hsep]
      exact countLoop_concatWith "\n" '\n' hsep rest e _ hlen hno
    have hcap : ¬ (rest.length + 1 > len (concatWith "\n" (e :: rest)) + 1) := by
      have : (concatWith "\n" (e :: rest)).length = (concatWith "\n" (e :: rest)).data.length :=
        rfl
      omega
    have hneg : ((-1 : Int) < 0) := by decide
    have hnz : ¬ ((-1 : Int) = 0) := by decide
    simp only [strings.Split, strings.genSplit, hnz, hsepne, if_false, hneg, if_true, hcount,
      hcap, Nat.add_sub_cancel, hsep]
    rw [splitLoop_concatWith "\n" '\n' hsep rest e _ (Nat.le_refl _) hno]
    simp [List.map_map, Function.comp_def]

/-- C17 (counterexample): a failed UAPI envelope whose one error holds a newline
has a text of two lines. -/
theorem uapi_error_lines_counterexample :
    (BaseUAPIResponse.mk 0 (StringSlice.of ["a\nb"]) StringSlice.nil).StatusCode ≠ 1 ∧
    (BaseUAPIResponse.mk 0 (StringSlice.of ["a\nb"]) StringSlice.nil).Error = some "a\nb" ∧
    strings.Split "a\nb" "\n" = ["a", "b"] ∧
    strings.Split "a\nb" "\n"
      ≠ (BaseUAPIResponse.mk 0 (StringSlice.of ["a\nb"]) StringSlice.nil).Errors.elems ∧
    (strings.Split "a\nb" "\n").length
      ≠ (BaseUAPIResponse.mk 0 (StringSlice.of ["a\nb"]) StringSlice.nil).Errors.len := by
  decide

/-- C17 (amended): for every UAPI envelope whose status is not `1` and whose
`Errors` list is non-empty with no newline inside any element, splitting the
text of `Error()` at the newlines gives back the list `Errors`, one line for
every error. -/
theorem uapi_error_lines (r : BaseUAPIResponse) (hs : r.StatusCode ≠ 1)
    (he : r.Errors.elems ≠ []) (hno : ∀ x ∈ r.Errors.elems, '\n' ∉ x.data) :
    ∃ t, r.Error = some t ∧ strings.Split t "\n" = r.Errors.elems ∧
      (strings.Split t "\n").length = r.Errors.len := by
  have hlen : r.Errors.len ≠ 0 := by
    simpa [StringSlice.len] using he
  have hsplit := Split_Join_newline r.Errors.elems he hno
  refine ⟨strings.Join r.Errors.elems "\n", ?_, hsplit, ?_⟩
  · simp [BaseUAPIResponse.Error, errors.New, hs, hlen]
  · rw [hsplit]
    rfl

/-- Witness for C17 (amended): three errors, one of them empty, give three
lines. -/
theorem uapi_error_lines_witness :
    ∃ t, (BaseUAPIResponse.mk 0 (StringSlice.of ["a", "", "c"]) StringSlice.nil).Error = some t ∧
      strings.Split t "\n" = ["a", "", "c"] ∧ (strings.Split t "\n").length = 3 :=
  uapi_error_lines (BaseUAPIResponse.mk 0 (StringSlice.of ["a", "", "c"]) StringSlice.nil)
    (by decide) (by decide) (by decide)

end cpanelgo
